import Mathlib

/-!
Verification of the per-frame pipeline of the asciicam demo (main.go):
frame decoding (YUYV422 and RGB888), background subtraction, glyph
quantisation, ANSI half-block rendering, the child-process (GStreamer)
read loop and the FPS moving average, shallowly embedded as executable
Lean functions.  Machine integers are modelled as naturals and integers
with the Go truncating divisions written out; the two float64
computations of the source (the glyph rounding and the FPS mean) are
modelled by exact rational arithmetic, which provably coincides with the
float64 results on the value ranges that occur (see the comments at the
respective definitions).
-/

namespace Asciicam

/-- An RGBA pixel with 8-bit channels stored as naturals (Go `color.RGBA`). -/
structure Pixel where
  r : ℕ
  g : ℕ
  b : ℕ
  a : ℕ
deriving DecidableEq, Repr

/-- The zero `color.RGBA` value: transparent black.  `image.Transparent`
converts to exactly this value through `color.RGBAModel` (its uniform color
is `color.Alpha16` zero, whose `RGBA()` is all zeros). -/
def Pixel.transparent : Pixel := ⟨0, 0, 0, 0⟩

/-- An RGBA image: zero-origin bounds plus a pixel grid (Go `image.RGBA`
with `Rect(0, 0, width, height)`). -/
structure Image where
  width : ℕ
  height : ℕ
  pix : ℕ → ℕ → Pixel

/-- Go `(*image.RGBA).At`: inside the bounds the stored pixel, outside them
the zero `color.RGBA` value (transparent black). -/
def Image.At (img : Image) (x y : ℕ) : Pixel :=
  if x < img.width ∧ y < img.height then img.pix x y else Pixel.transparent

/-- The glyph ramp `pixels` of main.go: 15 runes of increasing density. -/
def pixels : List Char :=
  [' ', '.', ',', ':', ';', 'i', '1', 't', 'f', 'L', 'C', 'G', '0', '8', '@']

/-- The intensity computed by `pixelToASCII` from the 16-bit channel values
returned by `pixel.RGBA()`: each channel is first reduced to 8 bits by the
truncating divisions `r2 / 256` and so on, then the alpha-weighted channel
sum `(r + g + b) * a / 255` is formed with Go unsigned integer division. -/
def intensityOf (r2 g2 b2 a2 : ℕ) : ℕ :=
  (r2 / 256 + g2 / 256 + b2 / 256) * (a2 / 256) / 255

/-- The `precision` of `pixelToASCII`: Go evaluates `255 * 3 / (len(pixels) - 1)`
entirely in integer arithmetic (giving 54) and only then converts the result
to float64, so the fractional part of 765 / 14 is discarded. -/
def precision : ℚ := ((255 * 3 / (pixels.length - 1) : ℕ) : ℚ)

/-- The glyph index of `pixelToASCII`:
`v := int(math.Floor(float64(intensity)/precision + 0.5))`.
For intensities 0..765 and precision 54 the float64 computation agrees with
the exact rational value used here: when the exact quotient plus one half is
an integer (intensity congruent to 27 modulo 54) the float64 division and
addition are exact, and otherwise the exact value keeps a distance of at
least 1/108 from every integer, far above the rounding error of the two
float64 operations, so the floor is unaffected. -/
def pixelToASCIIIdx (r2 g2 b2 a2 : ℕ) : ℕ :=
  (⌊(intensityOf r2 g2 b2 a2 : ℚ) / precision + 1 / 2⌋).toNat

/-- `pixelToASCII`: the ramp lookup `pixels[v]`.  The Go lookup panics on an
out-of-range index; it is made total here with `getD`, and a separate bounds
theorem shows the index is always in range, so the two agree. -/
def pixelToASCII (r2 g2 b2 a2 : ℕ) : Char :=
  pixels.getD (pixelToASCIIIdx r2 g2 b2 a2) ' '

/-- Modelled from the spec's words for comparison with `pixelToASCIIIdx`
(refinement check): the bucket width is the exact ratio of the ramp span 765
to the glyph count minus one. -/
def specBucketWidth : ℚ := 765 / 14

/-- Modelled from the spec's words for comparison with `pixelToASCIIIdx`
(refinement check): the glyph index as the spec sentence describes it,
`intensity / bucketWidth` rounded to the nearest integer with the exact
bucket width 765 / 14. -/
def specCharGlyphIdx (intensity : ℕ) : ℤ :=
  round ((intensity : ℚ) / specBucketWidth)

/-- The clamp of Go `color.YCbCrToRGB`: arithmetic shift right by 16 then
clamp into 0..255 (the Go source's bit twiddling is documented there to be
equivalent to exactly this). -/
def clamp8 (v : ℤ) : ℕ := (min (max v 0) 255).toNat

/-- Go `color.YCbCrToRGB`, the fixed-point YCbCr to RGB transform applied
per pixel when `draw.Draw` copies the YCbCr image into the RGBA image. -/
def ycbcrToRGB (y cb cr : ℕ) : ℕ × ℕ × ℕ :=
  let yy1 : ℤ := (y : ℤ) * 0x10101
  let cb1 : ℤ := (cb : ℤ) - 128
  let cr1 : ℤ := (cr : ℤ) - 128
  (clamp8 ((yy1 + 91881 * cr1).fdiv 65536),
   clamp8 ((yy1 - 22554 * cb1 - 46802 * cr1).fdiv 65536),
   clamp8 ((yy1 + 116130 * cb1).fdiv 65536))

/-- `frameToImage`: the fill loop stores `Y[j] = frame[2j]`,
`Cb[i] = frame[4i+1]` and `Cr[i] = frame[4i+3]`; an `image.YCbCr` with
4:2:2 subsampling addresses pixel (x, y) at luma index `y*w + x` and at
chroma index `y*((w+1)/2) + x/2`; drawing it into the fresh RGBA image
converts each triple with `YCbCrToRGB` and stores alpha 255.  Frame bytes
are read with `getD`, defaulting to 0: with an even width and a frame of
length exactly `w*h*2` every index used is in range (an odd width makes the
Go fill loop index out of range and panic, producing no image at all). -/
def frameToImage (frame : List ℕ) (w h : ℕ) : Image :=
  ⟨w, h, fun x y =>
    let yIdx := y * w + x
    let cIdx := y * ((w + 1) / 2) + x / 2
    let rgb := ycbcrToRGB (frame.getD (2 * yIdx) 0) (frame.getD (4 * cIdx + 1) 0)
      (frame.getD (4 * cIdx + 3) 0)
    ⟨rgb.1, rgb.2.1, rgb.2.2, 255⟩⟩

/-- `frameRGBToImage`: pixel (x, y) reads the three bytes starting at
`i = y*(w*3) + x*3`; when `i+2` falls outside the buffer the loop skips the
pixel with `continue`, leaving the freshly allocated image's zero value
(transparent black). -/
def frameRGBToImage (frame : List ℕ) (w h : ℕ) : Image :=
  ⟨w, h, fun x y =>
    let i := y * (w * 3) + x * 3
    if i + 2 < frame.length then
      ⟨frame.getD i 0, frame.getD (i + 1) 0, frame.getD (i + 2) 0, 255⟩
    else Pixel.transparent⟩

/-- An RGB888 buffer of n pixels that are all (255, 0, 0): the all-red test
frame of the spec's testable property. -/
def redBuf (n : ℕ) : List ℕ :=
  (List.range (3 * n)).map (fun j => if j % 3 = 0 then 255 else 0)

/-- `imageToANSI` reduced to its geometry: the loop walks y = 0, 2, 4, ...
while y is below the image height and emits one text line per iteration; the
cell at column x carries the half-block glyph with foreground
`img.At(x, y)` and background `img.At(x, y+1)`.  A cell is modelled as that
ordered color pair; the escape-sequence encoding of the pair is the
external termenv library. -/
def imageToANSI (img : Image) : List (List (Pixel × Pixel)) :=
  (List.range ((img.height + 1) / 2)).map (fun k =>
    (List.range img.width).map (fun x => (img.At x (2 * k), img.At x (2 * k + 1))))

/-- `greenscreen`, parametric in the Lab distance (`DistanceLab` is the
external go-colorful library).  A pixel strictly closer to the background
sample than the threshold is overwritten with `image.Transparent`, which
`(*image.RGBA).Set` stores as the zero RGBA value; every loop iteration
reads and writes only its own coordinate, so the sequential in-place
mutation equals this pointwise map. -/
def greenscreen (labDist : Pixel → Pixel → ℚ) (threshold : ℚ) (img bg : Image) : Image :=
  ⟨img.width, img.height, fun x y =>
    if labDist (img.At x y) (bg.At x y) < threshold then Pixel.transparent
    else img.At x y⟩

/-- The byte stream a GStreamer child process writes to its stdout: the
bytes delivered before the stream terminates, and how it terminates
(`none` is a clean end of file, `some e` a read failure `e`). -/
structure GstStream where
  data : List ℕ
  failure : Option ℕ
deriving DecidableEq, Repr

/-- The gst branch of the run loop: one `io.ReadFull` of a frameSize-byte
frame per iteration.  A full frame recurses on the rest of the stream;
otherwise `ReadFull` yields `io.EOF` (no bytes read, clean end) or
`io.ErrUnexpectedEOF` (partial frame, clean end), both of which the code
turns into a clean `return nil`, or it yields the underlying read failure,
which the code returns as a fatal error.  The clean result carries the list
of full frames read.  (With frameSize 0 the Go loop would spin forever; the
theorems below assume a positive frame size.) -/
def gstLoop (frameSize : ℕ) (s : GstStream) : Except ℕ (List (List ℕ)) :=
  if h : 0 < frameSize ∧ frameSize ≤ s.data.length then
    match gstLoop frameSize ⟨s.data.drop frameSize, s.failure⟩ with
    | .ok frames => .ok (s.data.take frameSize :: frames)
    | .error e => .error e
  else
    match s.failure with
    | none => .ok []
    | some e => .error e
termination_by s.data.length
decreasing_by
  simp only [List.length_drop]
  exact Nat.sub_lt (Nat.lt_of_lt_of_le h.1 h.2) h.1

/-- The seed FPS window: ten zero samples appended before the loop starts. -/
def fpsSeed : List ℚ := List.replicate 10 0

/-- The sample inserted per tick: `float64(time.Second / time.Since(now))`,
a truncating integer division of durations counted in nanoseconds, only then
widened to float64 (exactly, since the quotient is at most 10^9). -/
def fpsSample (elapsedNs : ℕ) : ℚ := ((1000000000 / elapsedNs : ℕ) : ℚ)

/-- One tick of the FPS window: the loop `fps[i] = fps[i-1]` for i = 9..1
shifts every slot one place older, discarding the oldest, and the new sample
lands in slot 0. -/
def fpsTick (fps : List ℚ) (sample : ℚ) : List ℚ := sample :: fps.dropLast

/-- n consecutive ticks inserting the same sample. -/
def fpsIter (sample : ℚ) : ℕ → List ℚ → List ℚ
  | 0, w => w
  | n + 1, w => fpsIter sample n (fpsTick w sample)

/-- The reported value: the arithmetic mean of the window (the float64 sum
and division are exact for the integer-valued samples the theorems below
consider, all of them at most 10^9 with a sum of at most 10^10 < 2^53). -/
def fpsAvg (fps : List ℚ) : ℚ := fps.sum / fps.length

/-- The rational rounding of the glyph index has the closed integer form
(intensity + 27) / 54 in Go-style truncating natural division. -/
theorem pixelToASCIIIdx_eq_div (r2 g2 b2 a2 : ℕ) :
    pixelToASCIIIdx r2 g2 b2 a2 = (intensityOf r2 g2 b2 a2 + 27) / 54 := by
  unfold pixelToASCIIIdx
  have hp : precision = 54 := by norm_num [precision, pixels]
  rw [hp]
  have hq : (intensityOf r2 g2 b2 a2 : ℚ) / 54 + 1 / 2 =
      ((intensityOf r2 g2 b2 a2 : ℚ) + 27) / 54 := by ring
  rw [hq]
  have hfl : ⌊((intensityOf r2 g2 b2 a2 : ℚ) + 27) / 54⌋ =
      (((intensityOf r2 g2 b2 a2 + 27) / 54 : ℕ) : ℤ) := by
    rw [Int.floor_eq_iff]
    constructor
    · rw [le_div_iff₀ (by norm_num : (0:ℚ) < 54)]
      have h1 : ((intensityOf r2 g2 b2 a2 + 27) / 54) * 54 ≤ intensityOf r2 g2 b2 a2 + 27 :=
        Nat.div_mul_le_self _ _
      push_cast
      exact_mod_cast h1
    · rw [div_lt_iff₀ (by norm_num : (0:ℚ) < 54)]
      have h2 : intensityOf r2 g2 b2 a2 + 27 < ((intensityOf r2 g2 b2 a2 + 27) / 54 + 1) * 54 := by
        omega
      push_cast
      exact_mod_cast h2
  rw [hfl]
  omega

/-- Bound on the alpha-weighted intensity for any 16-bit channel values. -/
theorem intensityOf_le_765 (r2 g2 b2 a2 : ℕ) (hr : r2 ≤ 65535) (hg : g2 ≤ 65535)
    (hb : b2 ≤ 65535) (ha : a2 ≤ 65535) : intensityOf r2 g2 b2 a2 ≤ 765 := by
  unfold intensityOf
  have hs : r2 / 256 + g2 / 256 + b2 / 256 ≤ 765 := by omega
  have ha8 : a2 / 256 ≤ 255 := by omega
  have hm : (r2 / 256 + g2 / 256 + b2 / 256) * (a2 / 256) ≤ 765 * 255 :=
    Nat.mul_le_mul hs ha8
  calc (r2 / 256 + g2 / 256 + b2 / 256) * (a2 / 256) / 255 ≤ 765 * 255 / 255 :=
      Nat.div_le_div_right hm
    _ = 765 := by norm_num

/-- After n ticks with the same sample, the front n slots hold that sample
and the remaining slots keep the oldest surviving seed entries. -/
theorem fpsIter_window (s : ℚ) :
    ∀ n, n ≤ 10 → ∀ w : List ℚ, w.length = 10 →
      fpsIter s n w = List.replicate n s ++ w.take (10 - n) := by
  intro n
  induction n with
  | zero =>
    intro _ w hw
    simp [fpsIter, List.take_of_length_le (le_of_eq hw)]
  | succ n ih =>
    intro hn w hw
    have htick : (fpsTick w s).length = 10 := by
      simp [fpsTick, List.length_dropLast, hw]
    have hstep : fpsIter s (n + 1) w = fpsIter s n (fpsTick w s) := rfl
    rw [hstep, ih (by omega) _ htick]
    have h1 : 10 - n = (9 - n) + 1 := by omega
    rw [fpsTick, h1]
    rw [List.take_succ_cons]
    rw [List.dropLast_eq_take, hw]
    rw [List.take_take]
    have h2 : min (9 - n) 9 = 9 - n := by omega
    rw [h2]
    rw [List.replicate_succ']
    simp [List.append_assoc]

/-- Ten ticks with one sample fill the whole window with that sample. -/
theorem fpsIter_ten (s : ℚ) (w : List ℚ) (hw : w.length = 10) :
    fpsIter s 10 w = List.replicate 10 s := by
  have h := fpsIter_window s 10 (le_refl 10) w hw
  simpa using h

/-- The mean of a constant ten-slot window is the constant. -/
theorem fpsAvg_replicate (s : ℚ) : fpsAvg (List.replicate 10 s) = s := by
  rw [fpsAvg, List.sum_replicate, List.length_replicate]
  push_cast [nsmul_eq_mul]
  ring

/-- A stream that terminates with a clean end of file always ends the gst
loop cleanly, delivering one frame per full frameSize-byte chunk. -/
theorem gstLoop_eof_ok (fs : ℕ) (hfs : 0 < fs) :
    ∀ n (data : List ℕ), data.length = n →
      ∃ frames, gstLoop fs ⟨data, none⟩ = Except.ok frames ∧
        frames.length = data.length / fs ∧ ∀ f ∈ frames, f.length = fs := by
  intro n
  induction n using Nat.strong_induction_on with
  | _ n ih =>
    intro data hlen
    by_cases hle : fs ≤ data.length
    · obtain ⟨frames, heq, hflen, hall⟩ :=
        ih (data.length - fs) (by omega) (data.drop fs) (by simp)
      refine ⟨data.take fs :: frames, ?_, ?_, ?_⟩
      · rw [gstLoop]
        rw [dif_pos ⟨hfs, hle⟩]
        simp only [heq]
      · simp only [List.length_cons, hflen, List.length_drop]
        rw [Nat.div_eq_sub_div hfs hle]
      · intro f hf
        rcases List.mem_cons.mp hf with h1 | h2
        · rw [h1]
          simp only [List.length_take]
          omega
        · exact hall f h2
    · refine ⟨[], ?_, ?_, ?_⟩
      · rw [gstLoop]
        rw [dif_neg (fun hcon => hle hcon.2)]
      · simp [Nat.div_eq_of_lt (by omega : data.length < fs)]
      · intro f hf
        simp at hf

/-- A stream that terminates with a read failure other than a clean end of
file always makes the gst loop return that failure, whatever the data. -/
theorem gstLoop_failure_fatal (fs : ℕ) (hfs : 0 < fs) (e : ℕ) :
    ∀ n (data : List ℕ), data.length = n →
      gstLoop fs ⟨data, some e⟩ = Except.error e := by
  intro n
  induction n using Nat.strong_induction_on with
  | _ n ih =>
    intro data hlen
    by_cases hle : fs ≤ data.length
    · have hrec := ih (data.length - fs) (by omega) (data.drop fs) (by simp)
      rw [gstLoop]
      rw [dif_pos ⟨hfs, hle⟩]
      simp only [hrec]
    · rw [gstLoop]
      rw [dif_neg (fun hcon => hle hcon.2)]

/-- C1, counterexample: a stream that delivers a single byte (less than the
3-byte frame of a 1 by 1 RGB888 image) and then hits a clean end of file
ends partway through a frame, yet the loop returns a clean result rather
than the fatal error the claim demands: `io.ReadFull` reports this partial
read as `io.ErrUnexpectedEOF`, which the code treats exactly like `io.EOF`. -/
theorem C1_counterexample : gstLoop 3 ⟨[7], none⟩ = Except.ok [] := by
  rw [gstLoop]
  norm_num

/-- C1 (amended): each frame read consumes exactly frameSize bytes; a stream
that terminates with a clean end of file ends the loop cleanly with no
error whether or not the end falls on a frame boundary (a trailing partial
frame is discarded), delivering one frame per full frameSize-byte chunk;
and a read failure other than a clean end of file propagates as a fatal
error. -/
theorem C1_stream_end (fs : ℕ) (hfs : 0 < fs) (data : List ℕ) :
    (∃ frames, gstLoop fs ⟨data, none⟩ = Except.ok frames ∧
      frames.length = data.length / fs ∧ ∀ f ∈ frames, f.length = fs) ∧
    ∀ e, gstLoop fs ⟨data, some e⟩ = Except.error e :=
  ⟨gstLoop_eof_ok fs hfs data.length data rfl,
   fun e => gstLoop_failure_fatal fs hfs e data.length data rfl⟩

/-- C1, witness: a 1 by 1 frame stream holding one full 3-byte frame plus
one stray byte that then fails with error code 7 is fatal. -/
theorem C1_witness : gstLoop 3 ⟨[1, 2, 3, 4], some 7⟩ = Except.error 7 :=
  (C1_stream_end 3 (by decide) [1, 2, 3, 4]).2 7

/-- C2, counterexample: for the pixel with 16-bit channels
(65535, 11565, 0, 65535) — the fully opaque NRGBA color (255, 45, 0, 255) —
the intensity is 300; the code computes glyph index 6 (precision 54 from the
integer division 765 / 14), while rounding intensity over the exact bucket
width 765 / 14 gives 5. -/
theorem C2_counterexample :
    (pixelToASCIIIdx 65535 11565 0 65535 : ℤ) ≠
      specCharGlyphIdx (intensityOf 65535 11565 0 65535) ∧
    pixelToASCIIIdx 65535 11565 0 65535 = 6 ∧
    specCharGlyphIdx (intensityOf 65535 11565 0 65535) = 5 := by
  have h1 : pixelToASCIIIdx 65535 11565 0 65535 = 6 := by
    rw [pixelToASCIIIdx_eq_div]; decide
  have hi : intensityOf 65535 11565 0 65535 = 300 := by decide
  have h2 : specCharGlyphIdx (intensityOf 65535 11565 0 65535) = 5 := by
    rw [hi]
    norm_num [specCharGlyphIdx, specBucketWidth, round_eq]
  refine ⟨?_, h1, h2⟩
  rw [h1, h2]
  decide

/-- C2 (amended): the glyph index equals intensity divided by the bucket
width and rounded to the nearest integer, where the bucket width is the Go
integer division 765 / 14 = 54 (the fractional part is discarded before the
float64 conversion), so the index is the truncating division
(intensity + 27) / 54; the intensity lies in 0..765. -/
theorem C2_glyph_index (r2 g2 b2 a2 : ℕ) (hr : r2 ≤ 65535) (hg : g2 ≤ 65535)
    (hb : b2 ≤ 65535) (ha : a2 ≤ 65535) :
    pixelToASCIIIdx r2 g2 b2 a2 = (intensityOf r2 g2 b2 a2 + 27) / 54 ∧
    intensityOf r2 g2 b2 a2 ≤ 765 :=
  ⟨pixelToASCIIIdx_eq_div r2 g2 b2 a2, intensityOf_le_765 r2 g2 b2 a2 hr hg hb ha⟩

/-- C2, witness at the opaque NRGBA pixel (255, 45, 0, 255). -/
theorem C2_witness :
    pixelToASCIIIdx 65535 11565 0 65535 = (intensityOf 65535 11565 0 65535 + 27) / 54 ∧
    intensityOf 65535 11565 0 65535 ≤ 765 :=
  C2_glyph_index 65535 11565 0 65535 (by decide) (by decide) (by decide) (by decide)

/-- C3, counterexample: a 1 by 1 image whose single pixel (10, 20, 30, 255)
equals the background sample.  The Lab distance of a color to itself is 0
(the Euclidean distance of identical Lab triples), strictly below the
default threshold 0.13, so the claim predicts the result (10, 20, 30, 0)
with red, green and blue preserved; the code stores `image.Transparent`,
the zero RGBA value, so red becomes 0 instead of 10. -/
theorem C3_counterexample :
    (greenscreen (fun _ _ => 0) (13 / 100) ⟨1, 1, fun _ _ => ⟨10, 20, 30, 255⟩⟩
        ⟨1, 1, fun _ _ => ⟨10, 20, 30, 255⟩⟩).At 0 0 = ⟨0, 0, 0, 0⟩ ∧
    ((greenscreen (fun _ _ => 0) (13 / 100) ⟨1, 1, fun _ _ => ⟨10, 20, 30, 255⟩⟩
        ⟨1, 1, fun _ _ => ⟨10, 20, 30, 255⟩⟩).At 0 0).r ≠ 10 := by
  constructor
  · norm_num [greenscreen, Image.At, Pixel.transparent]
  · norm_num [greenscreen, Image.At, Pixel.transparent]

/-- C3 (amended): at every in-bounds coordinate whose Lab distance to the
background sample is strictly below the threshold, background subtraction
replaces the pixel with transparent black (0, 0, 0, 0) — alpha becomes 0
but the red, green and blue channels are zeroed as well, not preserved —
and at every coordinate with distance at or above the threshold the pixel
is left entirely unchanged. -/
theorem C3_subtraction (labDist : Pixel → Pixel → ℚ) (threshold : ℚ) (img bg : Image)
    (x y : ℕ) (hx : x < img.width) (hy : y < img.height) :
    (labDist (img.At x y) (bg.At x y) < threshold →
      (greenscreen labDist threshold img bg).At x y = Pixel.transparent) ∧
    (threshold ≤ labDist (img.At x y) (bg.At x y) →
      (greenscreen labDist threshold img bg).At x y = img.At x y) := by
  have key : (greenscreen labDist threshold img bg).At x y =
      if labDist (img.At x y) (bg.At x y) < threshold then Pixel.transparent
      else img.At x y := by
    simp only [Image.At, greenscreen]
    rw [if_pos ⟨hx, hy⟩]
  constructor
  · intro hc
    rw [key, if_pos hc]
  · intro hc
    rw [key, if_neg (not_lt.mpr hc)]

/-- C3, witness: with a distance of 1 at or above threshold 1 the pixel is
untouched. -/
theorem C3_witness :
    (greenscreen (fun _ _ => 1) 1 ⟨1, 1, fun _ _ => ⟨9, 9, 9, 255⟩⟩
        ⟨1, 1, fun _ _ => ⟨1, 2, 3, 255⟩⟩).At 0 0 =
    (⟨1, 1, fun _ _ => ⟨9, 9, 9, 255⟩⟩ : Image).At 0 0 :=
  (C3_subtraction (fun _ _ => 1) 1 ⟨1, 1, fun _ _ => ⟨9, 9, 9, 255⟩⟩
    ⟨1, 1, fun _ _ => ⟨1, 2, 3, 255⟩⟩ 0 0 (by decide) (by decide)).2 (le_refl 1)

/-- C4: for a fixed ramp size, the character-mode glyph index is
monotonically non-decreasing in the alpha-weighted intensity: two pixels
with intensities i1 at most i2, both in 0..765, get glyph indices in the
same order. -/
theorem C4_monotone (pr pg pb pa qr qg qb qa : ℕ)
    (h1 : intensityOf pr pg pb pa ≤ 765) (h2 : intensityOf qr qg qb qa ≤ 765)
    (hle : intensityOf pr pg pb pa ≤ intensityOf qr qg qb qa) :
    pixelToASCIIIdx pr pg pb pa ≤ pixelToASCIIIdx qr qg qb qa := by
  rw [pixelToASCIIIdx_eq_div, pixelToASCIIIdx_eq_div]
  exact Nat.div_le_div_right (by omega)

/-- C4, witness: the black pixel's index is at most the white pixel's. -/
theorem C4_witness : pixelToASCIIIdx 0 0 0 0 ≤ pixelToASCIIIdx 65535 65535 65535 65535 :=
  C4_monotone 0 0 0 0 65535 65535 65535 65535 (by decide) (by decide) (by decide)

/-- C5: for every input pixel color (16-bit channel values as returned by
`pixel.RGBA()`), the character-mode glyph index is strictly below the
15-entry ramp length, so the ramp lookup never indexes out of bounds. -/
theorem C5_index_in_range (r2 g2 b2 a2 : ℕ) (hr : r2 ≤ 65535) (hg : g2 ≤ 65535)
    (hb : b2 ≤ 65535) (ha : a2 ≤ 65535) :
    pixelToASCIIIdx r2 g2 b2 a2 < pixels.length := by
  rw [pixelToASCIIIdx_eq_div]
  have hb765 := intensityOf_le_765 r2 g2 b2 a2 hr hg hb ha
  have hlen : pixels.length = 15 := by decide
  omega

/-- C5, witness at the brightest pixel, which hits the top index 14. -/
theorem C5_witness : pixelToASCIIIdx 65535 65535 65535 65535 < pixels.length :=
  C5_index_in_range 65535 65535 65535 65535 (by decide) (by decide) (by decide) (by decide)

/-- C6: for every valid width and height (width even, as the 4:2:2 layout
pairs two luma samples per chroma pair) and every YUYV422 buffer of length
exactly width*height*2, decoding is deterministic — equal buffers give equal
images, the decoder being a pure function — and produces an image of
exactly width by height pixels whose alpha channel is 255 everywhere. -/
theorem C6_yuyv_decode (w h : ℕ) (frame : List ℕ) (hw : w % 2 = 0)
    (hlen : frame.length = w * h * 2) :
    (∀ frame2 : List ℕ, frame2 = frame → frameToImage frame2 w h = frameToImage frame w h) ∧
    (frameToImage frame w h).width = w ∧ (frameToImage frame w h).height = h ∧
    ∀ x y : ℕ, x < w → y < h → ((frameToImage frame w h).At x y).a = 255 := by
  refine ⟨fun f2 hf => by rw [hf], rfl, rfl, fun x y hx hy => ?_⟩
  simp [frameToImage, Image.At, hx, hy]

/-- C6, witness: a 2 by 1 zero frame decodes with alpha 255 at (0, 0). -/
theorem C6_witness : ((frameToImage [0, 0, 0, 0] 2 1).At 0 0).a = 255 :=
  (C6_yuyv_decode 2 1 [0, 0, 0, 0] (by decide) (by decide)).2.2.2 0 0 (by decide) (by decide)

/-- C7: in ANSI half-block mode, an image of even height H yields exactly
H / 2 text lines, each of width cells, and the cell at column x of line k
pairs the pixel at (x, 2k) as foreground with the pixel at (x, 2k+1) as
background. -/
theorem C7_ansi_geometry (img : Image) (heven : img.height % 2 = 0) :
    (imageToANSI img).length = img.height / 2 ∧
    ∀ k x : ℕ, k < img.height / 2 → x < img.width →
      ((imageToANSI img).getD k []).length = img.width ∧
      ((imageToANSI img).getD k []).getD x (Pixel.transparent, Pixel.transparent) =
        (img.At x (2 * k), img.At x (2 * k + 1)) := by
  have hlen : (imageToANSI img).length = (img.height + 1) / 2 := by
    simp [imageToANSI]
  constructor
  · rw [hlen]; omega
  · intro k x hk hx
    have hk2 : k < (imageToANSI img).length := by rw [hlen]; omega
    have hrow : (imageToANSI img).getD k [] =
        (List.range img.width).map (fun x => (img.At x (2 * k), img.At x (2 * k + 1))) := by
      rw [List.getD_eq_getElem _ _ hk2]
      simp [imageToANSI]
    constructor
    · rw [hrow]; simp
    · rw [hrow]
      rw [List.getD_eq_getElem _ _ (by simpa using hx)]
      simp

/-- C7, witness: a 1 by 2 image renders one line whose single cell pairs
the two pixels of the column. -/
theorem C7_witness :
    ((imageToANSI ⟨1, 2, fun _ _ => ⟨3, 4, 5, 6⟩⟩).getD 0 []).getD 0
      (Pixel.transparent, Pixel.transparent) =
    ((⟨1, 2, fun _ _ => ⟨3, 4, 5, 6⟩⟩ : Image).At 0 0,
     (⟨1, 2, fun _ _ => ⟨3, 4, 5, 6⟩⟩ : Image).At 0 1) :=
  ((C7_ansi_geometry ⟨1, 2, fun _ _ => ⟨3, 4, 5, 6⟩⟩ (by decide)).2 0 0
    (by decide) (by decide)).2

/-- C8: every RGB888 pixel whose three backing bytes lie inside the buffer
decodes to those bytes with alpha 255, every pixel whose backing bytes
fall outside is left at the image's default transparent black without
failing the decode, and a buffer of at least width*height*3 bytes filled
with (255, 0, 0) triples decodes to an all-(255, 0, 0, 255) image. -/
theorem C8_rgb_decode :
    (∀ (w h : ℕ) (frame : List ℕ) (x y : ℕ), x < w → y < h →
      (y * (w * 3) + x * 3 + 2 < frame.length →
        (frameRGBToImage frame w h).At x y =
          ⟨frame.getD (y * (w * 3) + x * 3) 0, frame.getD (y * (w * 3) + x * 3 + 1) 0,
           frame.getD (y * (w * 3) + x * 3 + 2) 0, 255⟩) ∧
      (frame.length ≤ y * (w * 3) + x * 3 + 2 →
        (frameRGBToImage frame w h).At x y = Pixel.transparent)) ∧
    (∀ (w h n x y : ℕ), x < w → y < h → w * h ≤ n →
      (frameRGBToImage (redBuf n) w h).At x y = ⟨255, 0, 0, 255⟩) := by
  have partA : ∀ (w h : ℕ) (frame : List ℕ) (x y : ℕ), x < w → y < h →
      (y * (w * 3) + x * 3 + 2 < frame.length →
        (frameRGBToImage frame w h).At x y =
          ⟨frame.getD (y * (w * 3) + x * 3) 0, frame.getD (y * (w * 3) + x * 3 + 1) 0,
           frame.getD (y * (w * 3) + x * 3 + 2) 0, 255⟩) ∧
      (frame.length ≤ y * (w * 3) + x * 3 + 2 →
        (frameRGBToImage frame w h).At x y = Pixel.transparent) := by
    intro w h frame x y hx hy
    constructor
    · intro hin
      simp [frameRGBToImage, Image.At, hx, hy, hin]
    · intro hout
      have hnin : ¬(y * (w * 3) + x * 3 + 2 < frame.length) := by omega
      simp [frameRGBToImage, Image.At, hx, hy, hnin]
  refine ⟨partA, ?_⟩
  intro w h n x y hx hy hwn
  have hyx : y * w + x < w * h := by
    calc y * w + x < y * w + w := Nat.add_lt_add_left hx _
      _ = (y + 1) * w := by ring
      _ ≤ h * w := Nat.mul_le_mul_right w (Nat.succ_le_of_lt hy)
      _ = w * h := Nat.mul_comm h w
  have hA : y * w + x + 1 ≤ n := le_trans hyx hwn
  have hi : y * (w * 3) + x * 3 = 3 * (y * w + x) := by ring
  have hlenr : (redBuf n).length = 3 * n := by simp [redBuf]
  have hval : ∀ j, j < 3 * n → (redBuf n).getD j 0 = if j % 3 = 0 then 255 else 0 := by
    intro j hj
    rw [redBuf, List.getD_eq_getElem _ _ (by simpa using hj)]
    simp
  obtain ⟨A, hAdef⟩ : ∃ A, y * w + x = A := ⟨_, rfl⟩
  rw [hAdef] at hA
  have hin : y * (w * 3) + x * 3 + 2 < (redBuf n).length := by
    rw [hi, hAdef, hlenr]; omega
  have hmain := (partA w h (redBuf n) x y hx hy).1 hin
  rw [hmain]
  rw [hi, hAdef]
  rw [hval _ (by omega), hval _ (by omega), hval _ (by omega)]
  have m0 : 3 * A % 3 = 0 := by omega
  have m1 : (3 * A + 1) % 3 = 1 := by omega
  have m2 : (3 * A + 2) % 3 = 2 := by omega
  simp [m0, m1, m2]

/-- C8, witness: the one-pixel all-red buffer decodes to (255, 0, 0, 255). -/
theorem C8_witness : (frameRGBToImage (redBuf 1) 1 1).At 0 0 = ⟨255, 0, 0, 255⟩ :=
  C8_rgb_decode.2 1 1 1 0 0 (by decide) (by decide) (by decide)

/-- C9, counterexample: ten ticks of identical elapsed duration
d = 300000000 ns (0.3 s) drive the reported average to 3, because each
sample is the truncating duration division 1 s / d = 3; the reciprocal
1 / d of 0.3 s is 10 / 3 frames per second, which differs. -/
theorem C9_counterexample :
    fpsAvg (fpsIter (fpsSample 300000000) 10 fpsSeed) = 3 ∧
    (1 : ℚ) / (3 / 10) = 10 / 3 ∧
    (3 : ℚ) ≠ 10 / 3 := by
  have hs : fpsSample 300000000 = 3 := by norm_num [fpsSample]
  have h10 : fpsIter (fpsSample 300000000) 10 fpsSeed = List.replicate 10 3 := by
    rw [hs]
    exact fpsIter_ten 3 fpsSeed (by simp [fpsSeed])
  rw [h10]
  refine ⟨?_, by norm_num, by norm_num⟩
  exact fpsAvg_replicate 3

/-- C9 (amended): the estimator keeps a 10-slot window, each tick shifts
every sample one slot older discarding the oldest, inserts the new sample
at the front and reports the arithmetic mean of the 10 slots — but the
sample is the truncating integer duration division 1 s / d, so ten
consecutive ticks with identical elapsed duration d nanoseconds make the
reported average exactly the integer quotient 10^9 / d (which equals 1 / d
only when d divides one second). -/
theorem C9_average (d : ℕ) (init : List ℚ) (hlen : init.length = 10) :
    fpsAvg (fpsIter (fpsSample d) 10 init) = ((1000000000 / d : ℕ) : ℚ) := by
  rw [fpsIter_ten (fpsSample d) init hlen]
  exact fpsAvg_replicate (fpsSample d)

/-- C9, witness: d = 250000000 ns gives average 4 from the seed window. -/
theorem C9_witness :
    fpsAvg (fpsIter (fpsSample 250000000) 10 fpsSeed) = ((1000000000 / 250000000 : ℕ) : ℚ) :=
  C9_average 250000000 fpsSeed (by decide)

/-- C10: the ANSI half-block renderer is total for every image height H
(the embedding is a total function, as `At` is bounds-checked and returns
the zero color outside the image): it emits exactly (H + 1) / 2 = ceil(H/2)
text lines, and for odd H the background of every cell of the final line
comes from the out-of-bounds coordinate (x, H) and is therefore the zero
transparent black color. -/
theorem C10_ansi_total (img : Image) :
    (imageToANSI img).length = (img.height + 1) / 2 ∧
    (img.height % 2 = 1 → ∀ x : ℕ, x < img.width →
      (((imageToANSI img).getD (img.height / 2) []).getD x
        (Pixel.transparent, Pixel.transparent)).2 = Pixel.transparent) := by
  constructor
  · simp [imageToANSI]
  · intro hodd x hx
    have hk2 : img.height / 2 < (imageToANSI img).length := by
      simp only [imageToANSI, List.length_map, List.length_range]
      omega
    rw [List.getD_eq_getElem _ _ hk2]
    simp only [imageToANSI, List.getElem_map, List.getElem_range]
    rw [List.getD_eq_getElem _ _ (by simpa using hx)]
    simp only [List.getElem_map, List.getElem_range]
    have hy : 2 * (img.height / 2) + 1 = img.height := by omega
    rw [hy]
    simp [Image.At]

/-- C10, witness: a 1 by 3 image renders two lines and the final line's
cell has the transparent black background. -/
theorem C10_witness :
    (((imageToANSI ⟨1, 3, fun _ _ => ⟨3, 4, 5, 6⟩⟩).getD 1 []).getD 0
      (Pixel.transparent, Pixel.transparent)).2 = Pixel.transparent :=
  (C10_ansi_total ⟨1, 3, fun _ _ => ⟨3, 4, 5, 6⟩⟩).2 (by decide) 0 (by decide)

end Asciicam
